import Mathlib

/-!
Verification of the strategy-simulation core of a habit-correction
backtester: a fee-aware average-cost position ledger, three per-tick
trading strategies (panic-sell, dollar-cost averaging, buy-and-hold),
the backtest engine loop, the maximum-drawdown computation, and the
ranking sort.  Machine `long`/`int` values are modelled as `ℤ`,
`double` values (fee rates, ratios, thresholds, returns) as `ℚ`;
C++ casts `(long)x` / `(int)x` of a real quantity truncate toward zero,
modelled by `truncZ`, and C++ integer division truncates toward zero,
modelled by `Int.tdiv`.
-/

/-- Truncation of a rational toward zero, the behaviour of a C++ cast
from `double` to an integer type. -/
def truncZ (q : ℚ) : ℤ :=
  if 0 ≤ q then ⌊q⌋ else ⌈q⌉

/-- The state held by the abstract C++ class `TradingStrategy`:
a cost-basis ledger (cash, shares, average price) together with the
recorded equity curve and the buy/sell counters. -/
structure TradingStrategy where
  name : String
  cash : ℤ
  shares : ℤ
  avgPrice : ℤ
  equityHistory : List ℤ
  buyCount : ℤ
  sellCount : ℤ
deriving DecidableEq

namespace TradingStrategy

/-- The `TradingStrategy(name, initCash)` constructor. -/
def init (n : String) (initCash : ℤ) : TradingStrategy :=
  { name := n, cash := initCash, shares := 0, avgPrice := 0,
    equityHistory := [], buyCount := 0, sellCount := 0 }

/-- `TradingStrategy::buy(price, qty, feeRate)`. -/
def buy (s : TradingStrategy) (price qty : ℤ) (feeRate : ℚ) : TradingStrategy :=
  let cost := price * qty
  let fee := truncZ ((cost : ℚ) * feeRate)
  if s.cash ≥ cost + fee ∧ qty > 0 then
    let totalCost := s.avgPrice * s.shares + cost
    let shares' := s.shares + qty
    { s with
      shares := shares'
      avgPrice := if shares' > 0 then totalCost.tdiv shares' else 0
      cash := s.cash - (cost + fee)
      buyCount := s.buyCount + 1 }
  else s

/-- `TradingStrategy::sellAll(price, feeRate)`. -/
def sellAll (s : TradingStrategy) (price : ℤ) (feeRate : ℚ) : TradingStrategy :=
  if s.shares > 0 then
    let revenue := price * s.shares
    let fee := truncZ ((revenue : ℚ) * feeRate)
    { s with
      cash := s.cash + (revenue - fee)
      shares := 0
      avgPrice := 0
      sellCount := s.sellCount + 1 }
  else s

/-- `TradingStrategy::getTotalValue(price) = cash + shares*price`. -/
def getTotalValue (s : TradingStrategy) (price : ℤ) : ℤ :=
  s.cash + s.shares * price

/-- `TradingStrategy::recordEquity(price)`. -/
def recordEquity (s : TradingStrategy) (price : ℤ) : TradingStrategy :=
  { s with equityHistory := s.equityHistory ++ [s.getTotalValue price] }

end TradingStrategy

/-- The state of `PanicSellStrategy`. -/
structure PanicSellState where
  base : TradingStrategy
  stopLossRate : ℚ
  feeRate : ℚ
  hasBought : Bool
deriving DecidableEq

namespace PanicSellState

/-- The `PanicSellStrategy(initCash, threshold, fee)` constructor. -/
def init (initCash : ℤ) (threshold fee : ℚ) : PanicSellState :=
  { base := TradingStrategy.init "Panic Seller" initCash,
    stopLossRate := threshold, feeRate := fee, hasBought := false }

/-- `PanicSellStrategy::onPrice(idx, price, changeRate)`. -/
def onPrice (st : PanicSellState) (idx : ℕ) (price : ℤ) (changeRate : ℚ) : PanicSellState :=
  let st' :=
    if ¬st.hasBought ∧ st.base.cash ≥ price then
      let qty := st.base.cash.tdiv (price + truncZ ((price : ℚ) * st.feeRate))
      if qty > 0 then
        { st with base := st.base.buy price qty st.feeRate, hasBought := true }
      else st
    else if st.base.shares > 0 ∧ st.base.avgPrice > 0 then
      let profitRate : ℚ := ((price : ℚ) - (st.base.avgPrice : ℚ)) / (st.base.avgPrice : ℚ)
      if profitRate ≤ st.stopLossRate then
        { st with base := st.base.sellAll price st.feeRate }
      else st
    else st
  { st' with base := st'.base.recordEquity price }

end PanicSellState

/-- The state of `DCAStrategy`. -/
structure DCAState where
  base : TradingStrategy
  dcaDropRate : ℚ
  dcaInterval : ℤ
  buyRatio : ℚ
  feeRate : ℚ
  lastBuyIndex : ℤ
  lastBuyPrice : ℤ
deriving DecidableEq

namespace DCAState

/-- The `DCAStrategy(initCash, dropRate, interval, ratio, fee)` constructor. -/
def init (initCash : ℤ) (dropRate : ℚ) (interval : ℤ) (ratio fee : ℚ) : DCAState :=
  { base := TradingStrategy.init "DCA Coach" initCash,
    dcaDropRate := dropRate, dcaInterval := interval, buyRatio := ratio,
    feeRate := fee, lastBuyIndex := -1, lastBuyPrice := 0 }

/-- `DCAStrategy::onPrice(idx, price, changeRate)`. -/
def onPrice (st : DCAState) (idx : ℕ) (price : ℤ) (changeRate : ℚ) : DCAState :=
  let shouldBuy : Prop :=
    if st.lastBuyIndex < 0 ∧ st.base.cash ≥ price then True
    else if st.base.cash ≥ price then
      ((idx : ℤ) - st.lastBuyIndex ≥ st.dcaInterval) ∨
        (st.lastBuyPrice > 0 ∧
          ((price : ℚ) - (st.lastBuyPrice : ℚ)) / (st.lastBuyPrice : ℚ) ≤ st.dcaDropRate)
    else False
  let st' :=
    if shouldBuy then
      let buyAmount0 := truncZ ((st.base.cash : ℚ) * st.buyRatio)
      let buyAmount := if buyAmount0 < price then st.base.cash else buyAmount0
      let qty := buyAmount.tdiv (price + truncZ ((price : ℚ) * st.feeRate))
      if qty > 0 then
        { st with base := st.base.buy price qty st.feeRate,
                  lastBuyIndex := (idx : ℤ), lastBuyPrice := price }
      else st
    else st
  { st' with base := st'.base.recordEquity price }

end DCAState

/-- The state of `HoldStrategy`. -/
structure HoldState where
  base : TradingStrategy
  initialBuyRatio : ℚ
  feeRate : ℚ
  hasBought : Bool
deriving DecidableEq

namespace HoldState

/-- The `HoldStrategy(initCash, ratio, fee)` constructor. -/
def init (initCash : ℤ) (ratio fee : ℚ) : HoldState :=
  { base := TradingStrategy.init "Holder" initCash,
    initialBuyRatio := ratio, feeRate := fee, hasBought := false }

/-- `HoldStrategy::onPrice(idx, price, changeRate)`. -/
def onPrice (st : HoldState) (idx : ℕ) (price : ℤ) (changeRate : ℚ) : HoldState :=
  let st' :=
    if ¬st.hasBought ∧ st.base.cash ≥ price then
      let buyAmount := truncZ ((st.base.cash : ℚ) * st.initialBuyRatio)
      let qty := buyAmount.tdiv (price + truncZ ((price : ℚ) * st.feeRate))
      if qty > 0 then
        { st with base := st.base.buy price qty st.feeRate, hasBought := true }
      else st
    else st
  { st' with base := st'.base.recordEquity price }

end HoldState

/-- A strategy registered with the engine: one of the three concrete
subclasses of `TradingStrategy`. -/
inductive Strat where
  | panic (s : PanicSellState)
  | dca (s : DCAState)
  | hold (s : HoldState)
deriving DecidableEq

namespace Strat

/-- The `TradingStrategy` base-class part of a registered strategy. -/
def base : Strat → TradingStrategy
  | panic s => s.base
  | dca s => s.base
  | hold s => s.base

/-- Virtual dispatch of `onPrice`. -/
def onPrice : Strat → ℕ → ℤ → ℚ → Strat
  | panic s, idx, price, rate => panic (s.onPrice idx price rate)
  | dca s, idx, price, rate => dca (s.onPrice idx price rate)
  | hold s, idx, price, rate => hold (s.onPrice idx price rate)

end Strat

/-- The tick loop of `BacktestEngine::runBattle`: walks the remaining
prices, carrying the tick index and the previous price, and feeds every
strategy the identical `(index, price, changeRate)`. -/
def runLoop : List ℤ → ℕ → ℤ → List Strat → List Strat
  | [], _, _, ss => ss
  | p :: rest, i, prev, ss =>
    let changeRate : ℚ := if i = 0 then 0 else ((p : ℚ) - (prev : ℚ)) / (prev : ℚ) * 100
    runLoop rest (i + 1) p (ss.map (fun s => s.onPrice i p changeRate))

/-- `BacktestEngine::runBattle` restricted to its tick-replay effect on
the strategies: does nothing on an empty price history, otherwise
replays ticks `0..N-1` in order (the `onFinish` hook of every concrete
strategy is the inherited no-op). -/
def runBattle (prices : List ℤ) (ss : List Strat) : List Strat :=
  match prices with
  | [] => ss
  | p0 :: _ => runLoop prices 0 p0 ss

/-- The accumulator loop of `BacktestEngine::calculateMDD`: running
peak and running maximum drawdown fraction. -/
def mddLoop : List ℤ → ℤ → ℚ → ℚ
  | [], _, maxDD => maxDD
  | equity :: rest, peak, maxDD =>
    let peak' := if equity > peak then equity else peak
    let maxDD' :=
      if peak' > 0 then
        let dd : ℚ := ((peak' : ℚ) - (equity : ℚ)) / (peak' : ℚ)
        if dd > maxDD then dd else maxDD
      else maxDD
    mddLoop rest peak' maxDD'

/-- `BacktestEngine::calculateMDD(history)`: maximum drawdown of an
equity series, as a percentage. -/
def calculateMDD (history : List ℤ) : ℚ :=
  if history = [] then 0
  else mddLoop history 0 0 * 100

/-- The C++ `StrategyReport` record. -/
structure StrategyReport where
  strategyName : String
  initialCash : ℤ
  finalEquity : ℤ
  totalReturn : ℚ
  maxDrawdown : ℚ
  buyCount : ℤ
  sellCount : ℤ
  finalShares : ℤ
  avgPrice : ℤ
deriving DecidableEq

/-- One bounded pass of the bubble sort in `BacktestReport::printRanking`:
compares (and possibly swaps) the first `k` adjacent pairs, swapping when
the earlier report has strictly smaller total return. -/
def bubblePassN : ℕ → List StrategyReport → List StrategyReport
  | 0, l => l
  | _ + 1, [] => []
  | _ + 1, [a] => [a]
  | k + 1, a :: b :: t =>
    if a.totalReturn < b.totalReturn then b :: bubblePassN k (a :: t)
    else a :: bubblePassN k (b :: t)

/-- The outer loop of the bubble sort: iteration `i` of the C++ loop runs
the inner loop over `j = 0 .. n-2-i`, i.e. a pass bounded by `n-1-i`
comparisons; `bubbleIter k` performs the passes bounded by
`k-1, k-2, ..., 0`. -/
def bubbleIter : ℕ → List StrategyReport → List StrategyReport
  | 0, l => l
  | k + 1, l => bubbleIter k (bubblePassN k l)

/-- The sorted copy `ranked` built by `BacktestReport::printRanking`:
bubble sort, descending by total return. -/
def ranked (results : List StrategyReport) : List StrategyReport :=
  bubbleIter results.length results

/-! ### Helper lemmas -/

theorem truncZ_of_nonneg {q : ℚ} (h : 0 ≤ q) : truncZ q = ⌊q⌋ :=
  if_pos h

theorem floor_intCast_div {n d : ℤ} (hd : 0 ≤ d) : ⌊(n : ℚ) / (d : ℚ)⌋ = n / d := by
  lift d to ℕ using hd
  exact_mod_cast Rat.floor_intCast_div_natCast n d

namespace TradingStrategy

theorem buy_eq_of_guard (s : TradingStrategy) (price qty : ℤ) (feeRate : ℚ)
    (h : ¬(s.cash ≥ price * qty + truncZ ((price * qty : ℤ) * feeRate) ∧ qty > 0)) :
    s.buy price qty feeRate = s := by
  simp only [buy]
  rw [if_neg h]

theorem buy_success_fields (s : TradingStrategy) (price qty : ℤ) (feeRate : ℚ)
    (hp : 0 ≤ price) (hf : 0 ≤ feeRate) (hsh : 0 ≤ s.shares) (hav : 0 ≤ s.avgPrice)
    (hq : 0 < qty) (hcash : price * qty + ⌊((price * qty : ℤ) : ℚ) * feeRate⌋ ≤ s.cash) :
    (s.buy price qty feeRate).cash
        = s.cash - (price * qty + ⌊((price * qty : ℤ) : ℚ) * feeRate⌋) ∧
    (s.buy price qty feeRate).avgPrice
        = ⌊((s.avgPrice * s.shares + price * qty : ℤ) : ℚ) / ((s.shares + qty : ℤ) : ℚ)⌋ ∧
    (s.buy price qty feeRate).shares = s.shares + qty ∧
    (s.buy price qty feeRate).buyCount = s.buyCount + 1 ∧
    (s.buy price qty feeRate).sellCount = s.sellCount ∧
    (s.buy price qty feeRate).equityHistory = s.equityHistory ∧
    (s.buy price qty feeRate).name = s.name := by
  have hfee : truncZ ((price * qty : ℤ) * feeRate) = ⌊((price * qty : ℤ) : ℚ) * feeRate⌋ :=
    truncZ_of_nonneg (mul_nonneg (by exact_mod_cast mul_nonneg hp hq.le) hf)
  have hguard : s.cash ≥ price * qty + truncZ ((price * qty : ℤ) * feeRate) ∧ qty > 0 := by
    rw [hfee]; exact ⟨hcash, hq⟩
  have hsh' : (0 : ℤ) < s.shares + qty := by omega
  have hnum : (0 : ℤ) ≤ s.avgPrice * s.shares + price * qty :=
    add_nonneg (mul_nonneg hav hsh) (mul_nonneg hp hq.le)
  simp only [buy, if_pos hguard, if_pos hsh']
  rw [hfee, Int.tdiv_eq_ediv hnum hsh'.le, floor_intCast_div hsh'.le]
  simp

end TradingStrategy

namespace TradingStrategy

/-- **C1.** `buy(price, quantity, feeRate)` is a no-op when `quantity <= 0`
or when `cash` is below the fee-inclusive cost
`price*quantity*(1+feeRate)` — which, under the spec's integer-truncation
convention for money, is `price*quantity + floor(price*quantity*feeRate)`;
otherwise it debits `cash` by exactly `price*quantity + fee` with
`fee = floor(price*quantity*feeRate)`, sets
`avgCost = floor((avgCost*shares + price*quantity)/(shares+quantity))`,
increases `shares` by `quantity`, and increments the buy counter by
exactly one, leaving the other fields unchanged. -/
theorem buy_spec (s : TradingStrategy) (price qty : ℤ) (feeRate : ℚ)
    (hp : 0 ≤ price) (hf : 0 ≤ feeRate) (hsh : 0 ≤ s.shares) (hav : 0 ≤ s.avgPrice) :
    (qty ≤ 0 ∨ s.cash < price * qty + ⌊((price * qty : ℤ) : ℚ) * feeRate⌋ →
      s.buy price qty feeRate = s) ∧
    (0 < qty → price * qty + ⌊((price * qty : ℤ) : ℚ) * feeRate⌋ ≤ s.cash →
      (s.buy price qty feeRate).cash
          = s.cash - (price * qty + ⌊((price * qty : ℤ) : ℚ) * feeRate⌋) ∧
      (s.buy price qty feeRate).avgPrice
          = ⌊((s.avgPrice * s.shares + price * qty : ℤ) : ℚ) / ((s.shares + qty : ℤ) : ℚ)⌋ ∧
      (s.buy price qty feeRate).shares = s.shares + qty ∧
      (s.buy price qty feeRate).buyCount = s.buyCount + 1 ∧
      (s.buy price qty feeRate).sellCount = s.sellCount ∧
      (s.buy price qty feeRate).equityHistory = s.equityHistory ∧
      (s.buy price qty feeRate).name = s.name) := by
  have hfee : ∀ hq : 0 < qty, truncZ ((price * qty : ℤ) * feeRate) = ⌊((price * qty : ℤ) : ℚ) * feeRate⌋ := by
    intro hq
    exact truncZ_of_nonneg (mul_nonneg (by exact_mod_cast mul_nonneg hp hq.le) hf)
  constructor
  · rintro (hq | hcash)
    · exact buy_eq_of_guard s price qty feeRate (by simp [not_lt.mpr hq])
    · apply buy_eq_of_guard
      rintro ⟨hge, hqpos⟩
      rw [hfee hqpos] at hge
      omega
  · intro hq hcash
    exact buy_success_fields s price qty feeRate hp hf hsh hav hq hcash

end TradingStrategy

/-- Witness for `buy_spec`: a successful buy of 2 shares at price 10 with
fee rate 1/10 from a fresh ledger holding 100. -/
theorem buy_spec_witness :
    ((TradingStrategy.init "L" 100).buy 10 2 (1/10)).cash
        = 100 - (10 * 2 + ⌊((10 * 2 : ℤ) : ℚ) * (1/10)⌋) ∧
    ((TradingStrategy.init "L" 100).buy 10 2 (1/10)).shares = 0 + 2 ∧
    ((TradingStrategy.init "L" 100).buy 10 2 (1/10)).buyCount = 0 + 1 := by
  have h := (TradingStrategy.buy_spec (TradingStrategy.init "L" 100) 10 2 (1/10)
      (by decide) (by norm_num) (by decide) (by decide)).2
      (by decide) (by norm_num [TradingStrategy.init])
  exact ⟨h.1, h.2.2.1, h.2.2.2.1⟩

namespace TradingStrategy

/-- **C3.** `sellAll(price, feeRate)` with `shares > 0` leaves
`shares == 0` and `avgCost == 0`, credits `cash` by exactly
`price*shares - floor(price*shares*feeRate)`, and increments the sell
counter by one, leaving the other fields unchanged; with `shares == 0`
it is a no-op leaving the whole state unchanged. -/
theorem sellAll_spec (s : TradingStrategy) (price : ℤ) (feeRate : ℚ)
    (hp : 0 ≤ price) (hf : 0 ≤ feeRate) :
    (s.shares = 0 → s.sellAll price feeRate = s) ∧
    (0 < s.shares →
      (s.sellAll price feeRate).shares = 0 ∧
      (s.sellAll price feeRate).avgPrice = 0 ∧
      (s.sellAll price feeRate).cash
          = s.cash + (price * s.shares - ⌊((price * s.shares : ℤ) : ℚ) * feeRate⌋) ∧
      (s.sellAll price feeRate).sellCount = s.sellCount + 1 ∧
      (s.sellAll price feeRate).buyCount = s.buyCount ∧
      (s.sellAll price feeRate).equityHistory = s.equityHistory ∧
      (s.sellAll price feeRate).name = s.name) := by
  constructor
  · intro h0
    simp only [sellAll]
    rw [if_neg (by omega)]
  · intro hpos
    have hfee : truncZ ((price * s.shares : ℤ) * feeRate)
        = ⌊((price * s.shares : ℤ) : ℚ) * feeRate⌋ :=
      truncZ_of_nonneg (mul_nonneg (by exact_mod_cast mul_nonneg hp hpos.le) hf)
    simp only [sellAll, if_pos hpos]
    rw [hfee]
    simp

end TradingStrategy

/-- Witness for `sellAll_spec`: liquidating 3 shares at price 7 with fee
rate 1/10 from a ledger holding cash 1. -/
theorem sellAll_spec_witness :
    (({ TradingStrategy.init "L" 1 with shares := 3, avgPrice := 5
        } : TradingStrategy).sellAll 7 (1/10)).cash
        = 1 + (7 * 3 - ⌊((7 * 3 : ℤ) : ℚ) * (1/10)⌋) ∧
    (({ TradingStrategy.init "L" 1 with shares := 3, avgPrice := 5
        } : TradingStrategy).sellAll 7 (1/10)).shares = 0 := by
  have h := (TradingStrategy.sellAll_spec
      ({ TradingStrategy.init "L" 1 with shares := 3, avgPrice := 5 }) 7 (1/10)
      (by decide) (by norm_num)).2 (by decide)
  exact ⟨h.2.2.1, h.1⟩

/-- The concrete ledger used to settle the C2 cost-basis product claim:
cash 5, one share held at average cost 10. -/
def exLedgerC2 : TradingStrategy :=
  { name := "L", cash := 5, shares := 1, avgPrice := 10, equityHistory := [],
    buyCount := 0, sellCount := 0 }

/-- **C2 (counterexample).** The ledger `exLedgerC2` (cash 5, 1 share at
average cost 10) doing a successful `buy(5, 1, 0)` ends with `shares = 2`
and `avgCost = floor(15/2) = 7`, so `shares_after * avgCost_after = 14`
while `shares_before * avgCost_before + price*quantity = 15`. -/
theorem buy_cost_basis_counterexample :
    (exLedgerC2.buy 5 1 0).buyCount = exLedgerC2.buyCount + 1 ∧
    ¬ ((exLedgerC2.buy 5 1 0).shares * (exLedgerC2.buy 5 1 0).avgPrice
        = exLedgerC2.shares * exLedgerC2.avgPrice + 5 * 1) := by
  norm_num [TradingStrategy.buy, truncZ, Int.tdiv, exLedgerC2]

/-- **C2 (amended).** For every successful
`buy(price, quantity, feeRate)`, the integer-truncated average-cost
recomputation preserves the invested amount up to the remainder of the
truncating division:
`shares_after * avgCost_after
  == shares_before*avgCost_before + price*quantity
     - ((shares_before*avgCost_before + price*quantity) mod shares_after)`. -/
theorem buy_cost_basis_remainder (s : TradingStrategy) (price qty : ℤ) (feeRate : ℚ)
    (hp : 0 ≤ price) (hf : 0 ≤ feeRate) (hsh : 0 ≤ s.shares) (hav : 0 ≤ s.avgPrice)
    (hq : 0 < qty)
    (hcash : price * qty + ⌊((price * qty : ℤ) : ℚ) * feeRate⌋ ≤ s.cash) :
    (s.buy price qty feeRate).shares * (s.buy price qty feeRate).avgPrice
      = s.shares * s.avgPrice + price * qty
        - (s.shares * s.avgPrice + price * qty) % (s.shares + qty) := by
  have h := TradingStrategy.buy_success_fields s price qty feeRate hp hf hsh hav hq hcash
  rw [h.2.2.1, h.2.1, floor_intCast_div (by omega : (0:ℤ) ≤ s.shares + qty)]
  have hc : s.avgPrice * s.shares = s.shares * s.avgPrice := mul_comm _ _
  rw [hc]
  have key := Int.ediv_add_emod (s.shares * s.avgPrice + price * qty) (s.shares + qty)
  linarith [key]

/-- Witness for `buy_cost_basis_remainder` at the counterexample input:
`2 * 7 = 15 - 15 % 2`. -/
theorem buy_cost_basis_remainder_witness :
    (exLedgerC2.buy 5 1 0).shares * (exLedgerC2.buy 5 1 0).avgPrice
      = exLedgerC2.shares * exLedgerC2.avgPrice + 5 * 1
        - (exLedgerC2.shares * exLedgerC2.avgPrice + 5 * 1) % (exLedgerC2.shares + 1) := by
  exact buy_cost_basis_remainder exLedgerC2 5 1 0
    (by decide) (by norm_num) (by decide) (by decide) (by decide)
    (by norm_num [exLedgerC2])

/-- The running drawdown maximum stays in `[0, 1]` when every equity value
is non-negative. -/
theorem mddLoop_mem_unit : ∀ (h : List ℤ) (peak : ℤ) (m : ℚ),
    (∀ e ∈ h, 0 ≤ e) → 0 ≤ peak → 0 ≤ m → m ≤ 1 →
    0 ≤ mddLoop h peak m ∧ mddLoop h peak m ≤ 1 := by
  intro h
  induction h with
  | nil => intro peak m _ _ hm hm1; exact ⟨hm, hm1⟩
  | cons e rest ih =>
    intro peak m hnn hpk hm hm1
    have he : (0 : ℤ) ≤ e := hnn e (by simp)
    have hrest : ∀ x ∈ rest, (0 : ℤ) ≤ x := fun x hx => hnn x (by simp [hx])
    simp only [mddLoop]
    set peak' := if e > peak then e else peak with hpeak'
    have hpk' : 0 ≤ peak' := by
      rw [hpeak']; split <;> omega
    have hep : e ≤ peak' := by
      rw [hpeak']; split <;> omega
    by_cases hpos : peak' > 0
    · rw [if_pos hpos]
      have hq : (0 : ℚ) < (peak' : ℚ) := by exact_mod_cast hpos
      have hdd0 : 0 ≤ ((peak' : ℚ) - (e : ℚ)) / (peak' : ℚ) :=
        div_nonneg (by exact_mod_cast sub_nonneg.mpr hep) hq.le
      have hdd1 : ((peak' : ℚ) - (e : ℚ)) / (peak' : ℚ) ≤ 1 := by
        rw [div_le_one hq]
        have : (0 : ℚ) ≤ (e : ℚ) := by exact_mod_cast he
        linarith
      split
      · exact ih peak' _ hrest hpk' hdd0 hdd1
      · exact ih peak' m hrest hpk' hm hm1
    · rw [if_neg hpos]
      exact ih peak' m hrest hpk' hm hm1

/-- The drawdown loop never leaves zero on a non-decreasing equity
series, provided the incoming peak does not exceed the first value
(unless it is still non-positive). -/
theorem mddLoop_chain_eq_zero : ∀ (h : List ℤ) (peak : ℤ),
    h.Chain' (· ≤ ·) → (∀ e, h.head? = some e → peak ≤ 0 ∨ peak ≤ e) →
    mddLoop h peak 0 = 0 := by
  intro h
  induction h with
  | nil => intro peak _ _; rfl
  | cons e rest ih =>
    intro peak hch hhd
    have hch' : rest.Chain' (· ≤ ·) := hch.tail
    have hhead : ∀ x, rest.head? = some x → e ≤ x := by
      intro x hx
      exact List.Chain'.rel_head? hch (by simpa using hx)
    simp only [mddLoop]
    set peak' := if e > peak then e else peak with hpeak'
    have hstep : peak' ≤ 0 ∨ peak' ≤ e := by
      rcases hhd e rfl with h0 | hle <;> rw [hpeak'] <;> split <;> omega
    have hnext : ∀ x, rest.head? = some x → peak' ≤ 0 ∨ peak' ≤ x := by
      intro x hx
      rcases hstep with h0 | hle
      · exact Or.inl h0
      · exact Or.inr (le_trans hle (hhead x hx))
    by_cases hpos : peak' > 0
    · rw [if_pos hpos]
      have hpe : peak' ≤ e := by omega
      have hep : e ≤ peak' := by rw [hpeak']; split <;> omega
      have heq : peak' = e := le_antisymm hpe hep
      have hdd : ((peak' : ℚ) - (e : ℚ)) / (peak' : ℚ) = 0 := by
        rw [heq]; simp
      rw [hdd, if_neg (by norm_num)]
      exact ih peak' hch' hnext
    · rw [if_neg hpos]
      exact ih peak' hch' hnext

/-- **C8 (counterexample).** On the equity series `[1, -1]` the drawdown
against the peak `1` is `(1 - (-1))/1 = 2`, so `calculateMDD` returns
`200`, outside `[0, 100]`. -/
theorem calculateMDD_range_counterexample :
    calculateMDD [1, -1] = 200 ∧ ¬(calculateMDD [1, -1] ≤ 100) := by
  have hne : ([1, -1] : List ℤ) ≠ [] := by simp
  have h : calculateMDD [1, -1] = 200 := by
    simp only [calculateMDD, if_neg hne, mddLoop]
    norm_num
  exact ⟨h, by rw [h]; norm_num⟩

/-- **C8 (amended).** `calculateMDD` returns 0 on the empty series and 0
on every monotonically non-decreasing series; on every series of
non-negative equity values it returns a value in `[0, 100]` (negative
equity values can push it above 100). -/
theorem calculateMDD_spec :
    calculateMDD [] = 0 ∧
    (∀ h : List ℤ, (∀ e ∈ h, 0 ≤ e) → 0 ≤ calculateMDD h ∧ calculateMDD h ≤ 100) ∧
    (∀ h : List ℤ, h.Chain' (· ≤ ·) → calculateMDD h = 0) := by
  refine ⟨rfl, ?_, ?_⟩
  · intro h hnn
    by_cases hemp : h = []
    · subst hemp; norm_num [calculateMDD]
    · have := mddLoop_mem_unit h 0 0 hnn le_rfl le_rfl (by norm_num)
      simp only [calculateMDD, if_neg hemp]
      constructor <;> nlinarith [this.1, this.2]
  · intro h hch
    by_cases hemp : h = []
    · subst hemp; rfl
    · have := mddLoop_chain_eq_zero h 0 hch (fun e _ => Or.inl le_rfl)
      simp only [calculateMDD, if_neg hemp, this, zero_mul]

/-- Witness for `calculateMDD_spec`: the non-negative series `[5, 4, 8, 2]`
yields a drawdown percentage inside `[0, 100]`, and the non-decreasing
series `[3, 3, 7]` yields 0. -/
theorem calculateMDD_spec_witness :
    (0 ≤ calculateMDD [5, 4, 8, 2] ∧ calculateMDD [5, 4, 8, 2] ≤ 100) ∧
    calculateMDD [3, 3, 7] = 0 :=
  ⟨calculateMDD_spec.2.1 [5, 4, 8, 2] (by decide),
   calculateMDD_spec.2.2 [3, 3, 7] (by simp)⟩

namespace TradingStrategy

theorem buy_equityHistory (s : TradingStrategy) (price qty : ℤ) (feeRate : ℚ) :
    (s.buy price qty feeRate).equityHistory = s.equityHistory := by
  simp only [buy]
  split <;> rfl

theorem sellAll_equityHistory (s : TradingStrategy) (price : ℤ) (feeRate : ℚ) :
    (s.sellAll price feeRate).equityHistory = s.equityHistory := by
  simp only [sellAll]
  split <;> rfl

end TradingStrategy

theorem panic_onPrice_equity (st : PanicSellState) (i : ℕ) (p : ℤ) (r : ℚ) :
    (st.onPrice i p r).base.equityHistory
      = st.base.equityHistory ++ [(st.onPrice i p r).base.getTotalValue p] := by
  simp only [PanicSellState.onPrice]
  split_ifs <;>
    simp [TradingStrategy.recordEquity, TradingStrategy.getTotalValue,
      TradingStrategy.buy_equityHistory, TradingStrategy.sellAll_equityHistory]

theorem dca_onPrice_equity (st : DCAState) (i : ℕ) (p : ℤ) (r : ℚ) :
    (st.onPrice i p r).base.equityHistory
      = st.base.equityHistory ++ [(st.onPrice i p r).base.getTotalValue p] := by
  simp only [DCAState.onPrice]
  split_ifs <;>
    simp [TradingStrategy.recordEquity, TradingStrategy.getTotalValue,
      TradingStrategy.buy_equityHistory, TradingStrategy.sellAll_equityHistory]

theorem hold_onPrice_equity (st : HoldState) (i : ℕ) (p : ℤ) (r : ℚ) :
    (st.onPrice i p r).base.equityHistory
      = st.base.equityHistory ++ [(st.onPrice i p r).base.getTotalValue p] := by
  simp only [HoldState.onPrice]
  split_ifs <;>
    simp [TradingStrategy.recordEquity, TradingStrategy.getTotalValue,
      TradingStrategy.buy_equityHistory, TradingStrategy.sellAll_equityHistory]

theorem strat_onPrice_equity (s : Strat) (i : ℕ) (p : ℤ) (r : ℚ) :
    (s.onPrice i p r).base.equityHistory
      = s.base.equityHistory ++ [(s.onPrice i p r).base.getTotalValue p] := by
  cases s with
  | panic st => exact panic_onPrice_equity st i p r
  | dca st => exact dca_onPrice_equity st i p r
  | hold st => exact hold_onPrice_equity st i p r

theorem runLoop_length : ∀ (prices : List ℤ) (i : ℕ) (prev : ℤ) (ss : List Strat),
    (runLoop prices i prev ss).length = ss.length := by
  intro prices
  induction prices with
  | nil => intro i prev ss; rfl
  | cons p rest ih =>
    intro i prev ss
    simp only [runLoop]
    rw [ih]
    simp

theorem runLoop_equity_length : ∀ (prices : List ℤ) (i : ℕ) (prev : ℤ) (ss : List Strat)
    (k : ℕ) (h1 : k < (runLoop prices i prev ss).length) (h2 : k < ss.length),
    ((runLoop prices i prev ss).get ⟨k, h1⟩).base.equityHistory.length
      = (ss.get ⟨k, h2⟩).base.equityHistory.length + prices.length := by
  intro prices
  induction prices with
  | nil => intro i prev ss k h1 h2; rfl
  | cons p rest ih =>
    intro i prev ss k h1 h2
    simp only [runLoop] at h1 ⊢
    have h2' : k < (ss.map (fun s => s.onPrice i p
        (if i = 0 then 0 else ((p : ℚ) - (prev : ℚ)) / (prev : ℚ) * 100))).length := by
      simpa using h2
    rw [ih _ _ _ k h1 h2']
    have hmap : ((ss.map (fun s => s.onPrice i p
        (if i = 0 then 0 else ((p : ℚ) - (prev : ℚ)) / (prev : ℚ) * 100))).get ⟨k, h2'⟩)
        = (ss.get ⟨k, h2⟩).onPrice i p
            (if i = 0 then 0 else ((p : ℚ) - (prev : ℚ)) / (prev : ℚ) * 100) := by
      simp [List.get_eq_getElem]
    rw [hmap, strat_onPrice_equity]
    simp only [List.length_append, List.length_cons, List.length_nil]
    omega

/-- **C4.** Every strategy's `onPrice` appends exactly one equity snapshot,
the current `totalValue(price)`, to its equity series (first conjunct, so
the engine appends one snapshot per tick in tick order, including the
first tick); `runBattle` keeps one strategy per registered strategy
(second conjunct); and after a run starting from empty equity histories
every strategy's equity history length equals the number of price ticks
(third conjunct). -/
theorem runBattle_equity_per_tick :
    (∀ (s : Strat) (i : ℕ) (p : ℤ) (r : ℚ),
      (s.onPrice i p r).base.equityHistory
        = s.base.equityHistory ++ [(s.onPrice i p r).base.getTotalValue p]) ∧
    (∀ (prices : List ℤ) (ss : List Strat),
      (runBattle prices ss).length = ss.length) ∧
    (∀ (prices : List ℤ) (ss : List Strat),
      (∀ s ∈ ss, s.base.equityHistory = []) →
      ∀ s ∈ runBattle prices ss, s.base.equityHistory.length = prices.length) := by
  refine ⟨strat_onPrice_equity, ?_, ?_⟩
  · intro prices ss
    cases prices with
    | nil => rfl
    | cons p rest => exact runLoop_length (p :: rest) 0 p ss
  · intro prices ss hempty s hs
    cases prices with
    | nil =>
      simp only [runBattle] at hs
      rw [hempty s hs]
    | cons p rest =>
      simp only [runBattle] at hs
      obtain ⟨k, hk⟩ := List.mem_iff_get.mp hs
      have h2 : (k : ℕ) < ss.length := by
        have := runLoop_length (p :: rest) 0 p ss
        omega
      rw [← hk]
      rw [runLoop_equity_length (p :: rest) 0 p ss k k.isLt h2]
      rw [hempty (ss.get ⟨k, h2⟩) (List.get_mem ss _ h2)]
      simp

/-- Witness for `runBattle_equity_per_tick`: a two-tick run of a panic
strategy records exactly two equity points. -/
theorem runBattle_equity_per_tick_witness :
    (runBattle [100, 90] [Strat.panic (PanicSellState.init 1000 0 0)]).map
        (fun s => s.base.equityHistory.length) = [2] := by
  have h2 := runBattle_equity_per_tick.2.1 [100, 90]
    [Strat.panic (PanicSellState.init 1000 0 0)]
  have h3 := runBattle_equity_per_tick.2.2 [100, 90]
    [Strat.panic (PanicSellState.init 1000 0 0)] (by decide)
  obtain ⟨a, ha⟩ := List.length_eq_one.mp h2
  have ham : a ∈ runBattle [100, 90] [Strat.panic (PanicSellState.init 1000 0 0)] := by
    rw [ha]; simp
  rw [ha]
  simp [h3 a ham]

namespace TradingStrategy

@[simp] theorem recordEquity_buyCount (s : TradingStrategy) (p : ℤ) :
    (s.recordEquity p).buyCount = s.buyCount := rfl

@[simp] theorem recordEquity_sellCount (s : TradingStrategy) (p : ℤ) :
    (s.recordEquity p).sellCount = s.sellCount := rfl

@[simp] theorem recordEquity_shares (s : TradingStrategy) (p : ℤ) :
    (s.recordEquity p).shares = s.shares := rfl

@[simp] theorem recordEquity_cash (s : TradingStrategy) (p : ℤ) :
    (s.recordEquity p).cash = s.cash := rfl

@[simp] theorem recordEquity_avgPrice (s : TradingStrategy) (p : ℤ) :
    (s.recordEquity p).avgPrice = s.avgPrice := rfl

theorem buy_buyCount_cases (s : TradingStrategy) (p q : ℤ) (f : ℚ) :
    (s.buy p q f).buyCount = s.buyCount ∨ (s.buy p q f).buyCount = s.buyCount + 1 := by
  simp only [buy]
  split
  · right; rfl
  · left; rfl

theorem buy_sellCount (s : TradingStrategy) (p q : ℤ) (f : ℚ) :
    (s.buy p q f).sellCount = s.sellCount := by
  simp only [buy]
  split <;> rfl

theorem sellAll_buyCount (s : TradingStrategy) (p : ℤ) (f : ℚ) :
    (s.sellAll p f).buyCount = s.buyCount := by
  simp only [sellAll]
  split <;> rfl

theorem sellAll_of_pos (s : TradingStrategy) (p : ℤ) (f : ℚ) (h : 0 < s.shares) :
    (s.sellAll p f).sellCount = s.sellCount + 1 ∧ (s.sellAll p f).shares = 0 := by
  unfold sellAll
  rw [if_pos h]
  exact ⟨rfl, rfl⟩

end TradingStrategy

/-- The state invariant behind the single-shot behaviour of the panic
strategy: before the first buy everything is fresh, the buy counter never
passes 1, the sell counter never passes 1, and an open position implies
that no sale has happened yet. -/
def PanicSellState.singleShotInv (st : PanicSellState) : Prop :=
  (st.hasBought = false →
    st.base.buyCount = 0 ∧ st.base.sellCount = 0 ∧ st.base.shares = 0) ∧
  st.base.buyCount ≤ 1 ∧ st.base.sellCount ≤ 1 ∧
  (0 < st.base.shares → st.base.sellCount = 0)

theorem PanicSellState.onPrice_singleShotInv (st : PanicSellState) (i : ℕ) (p : ℤ) (r : ℚ)
    (h : st.singleShotInv) : (st.onPrice i p r).singleShotInv := by
  obtain ⟨hfresh, hb1, hs1, hsh⟩ := h
  simp only [onPrice]
  split_ifs with h1 h2 h3 h4
  · -- first affordable tick, positive quantity: buy and set hasBought
    have hb0 : st.hasBought = false := by
      rcases h1 with ⟨hnb, -⟩
      simpa using hnb
    obtain ⟨hbc, hsc, -⟩ := hfresh hb0
    refine ⟨by simp, ?_, ?_, ?_⟩
    · rcases TradingStrategy.buy_buyCount_cases st.base p
          (st.base.cash.tdiv (p + truncZ ((p : ℚ) * st.feeRate))) st.feeRate with hc | hc <;>
        simp [hc, hbc]
    · simp [TradingStrategy.buy_sellCount, hsc]
    · intro _
      simp [TradingStrategy.buy_sellCount, hsc]
  · -- first affordable tick but zero quantity: only the equity record
    exact ⟨fun hb => hfresh hb, by simpa using hb1, by simpa using hs1, fun hp => hsh (by simpa using hp)⟩
  · -- holding and the stop-loss fired: liquidate
    have hsc0 : st.base.sellCount = 0 := hsh h3.1
    obtain ⟨hsc', hsh'⟩ := TradingStrategy.sellAll_of_pos st.base p st.feeRate h3.1
    refine ⟨?_, ?_, ?_, ?_⟩
    · intro hb
      obtain ⟨-, -, hz⟩ := hfresh (by simpa using hb)
      omega
    · simp [TradingStrategy.sellAll_buyCount, hb1]
    · simp [hsc', hsc0]
    · intro hp
      simp [hsh'] at hp
  · -- holding, no trigger: only the equity record
    exact ⟨fun hb => hfresh hb, by simpa using hb1, by simpa using hs1, fun hp => hsh (by simpa using hp)⟩
  · -- not holding (or cannot enter): only the equity record
    exact ⟨fun hb => hfresh hb, by simpa using hb1, by simpa using hs1, fun hp => hsh (by simpa using hp)⟩

/-- Any per-strategy property preserved by `onPrice` is preserved by the
engine tick loop. -/
theorem runLoop_preserves (P : Strat → Prop)
    (hP : ∀ (s : Strat) (i : ℕ) (p : ℤ) (r : ℚ), P s → P (s.onPrice i p r)) :
    ∀ (prices : List ℤ) (i : ℕ) (prev : ℤ) (ss : List Strat),
      (∀ s ∈ ss, P s) → ∀ s ∈ runLoop prices i prev ss, P s := by
  intro prices
  induction prices with
  | nil => intro i prev ss hss s hs; exact hss s hs
  | cons p rest ih =>
    intro i prev ss hss s hs
    refine ih (i + 1) p _ ?_ s hs
    intro t ht
    obtain ⟨t0, ht0, rfl⟩ := List.mem_map.mp ht
    exact hP t0 i p _ (hss t0 ht0)

/-- Lift of the panic single-shot invariant to engine strategies: holds
only for panic strategies. -/
def stratPanicInv (s : Strat) : Prop :=
  match s with
  | Strat.panic st => st.singleShotInv
  | _ => False

theorem stratPanicInv_step (s : Strat) (i : ℕ) (p : ℤ) (r : ℚ)
    (hs : stratPanicInv s) : stratPanicInv (s.onPrice i p r) := by
  cases s with
  | panic st => exact st.onPrice_singleShotInv i p r hs
  | dca st => exact hs.elim
  | hold st => exact hs.elim

theorem panicSellInit_singleShotInv (initCash : ℤ) (threshold fee : ℚ) :
    (PanicSellState.init initCash threshold fee).singleShotInv := by
  refine ⟨fun _ => ⟨rfl, rfl, rfl⟩, ?_, ?_, fun hp => rfl⟩ <;>
    norm_num [PanicSellState.init, TradingStrategy.init]

/-- **C7.** For every price series and every configuration (initial cash,
stop-loss threshold, fee rate), a panic-sell strategy run through the
engine buys at most once and sells at most once: its buy counter never
exceeds 1 and its sell counter never exceeds 1, so it never re-enters a
position after its single liquidation. -/
theorem panicSell_single_shot (prices : List ℤ) (initCash : ℤ) (threshold fee : ℚ) :
    ∀ s ∈ runBattle prices [Strat.panic (PanicSellState.init initCash threshold fee)],
      s.base.buyCount ≤ 1 ∧ s.base.sellCount ≤ 1 := by
  intro s hs
  have hout : stratPanicInv s := by
    cases prices with
    | nil =>
      simp only [runBattle] at hs
      simp only [List.mem_singleton] at hs
      subst hs
      exact panicSellInit_singleShotInv initCash threshold fee
    | cons p rest =>
      refine runLoop_preserves stratPanicInv stratPanicInv_step (p :: rest) 0 p _ ?_ s hs
      intro t ht
      simp only [List.mem_singleton] at ht
      subst ht
      exact panicSellInit_singleShotInv initCash threshold fee
  cases s with
  | panic st => exact ⟨hout.2.1, hout.2.2.1⟩
  | dca st => exact hout.elim
  | hold st => exact hout.elim

/-- Witness for `panicSell_single_shot`: a concrete two-tick run with
cash 3, threshold 0 and fee 0 keeps both counters at most 1. -/
theorem panicSell_single_shot_witness :
    (runBattle [5, 7] [Strat.panic (PanicSellState.init 3 0 0)]).all
      (fun s => decide (s.base.buyCount ≤ 1) && decide (s.base.sellCount ≤ 1)) = true := by
  rw [List.all_eq_true]
  intro s hs
  obtain ⟨h1, h2⟩ := panicSell_single_shot [5, 7] 3 0 0 s hs
  simp [h1, h2]

/-- Well-formedness of a ledger: non-negative cash, shares and average
price. -/
def TradingStrategy.goodLedger (s : TradingStrategy) : Prop :=
  0 ≤ s.cash ∧ 0 ≤ s.shares ∧ 0 ≤ s.avgPrice

theorem TradingStrategy.buy_goodLedger (s : TradingStrategy) (p q : ℤ) (f : ℚ)
    (hp : 0 ≤ p) (h : s.goodLedger) : (s.buy p q f).goodLedger := by
  obtain ⟨hc, hs, ha⟩ := h
  simp only [buy, goodLedger]
  split_ifs with hg hpos
  · obtain ⟨hg1, hg2⟩ := hg
    dsimp only
    refine ⟨by omega, by omega, ?_⟩
    refine Int.tdiv_nonneg ?_ (by omega)
    have h1 : 0 ≤ p * q := mul_nonneg hp (by omega)
    have h2 : 0 ≤ s.avgPrice * s.shares := mul_nonneg ha hs
    omega
  · obtain ⟨hg1, hg2⟩ := hg
    dsimp only
    exact ⟨by omega, by omega, le_rfl⟩
  · exact ⟨hc, hs, ha⟩

theorem TradingStrategy.sellAll_goodLedger (s : TradingStrategy) (p : ℤ) (f : ℚ)
    (hp : 0 ≤ p) (hf0 : 0 ≤ f) (hf1 : f ≤ 1) (h : s.goodLedger) :
    (s.sellAll p f).goodLedger ∧ s.cash ≤ (s.sellAll p f).cash := by
  obtain ⟨hc, hs, ha⟩ := h
  simp only [sellAll, goodLedger]
  split_ifs with hpos
  · have hrev : (0 : ℤ) ≤ p * s.shares := mul_nonneg hp hs
    have hq : (0 : ℚ) ≤ ((p * s.shares : ℤ) : ℚ) * f :=
      mul_nonneg (by exact_mod_cast hrev) hf0
    have hfee : truncZ ((p * s.shares : ℤ) * f) = ⌊((p * s.shares : ℤ) : ℚ) * f⌋ :=
      truncZ_of_nonneg hq
    have hfee0 : 0 ≤ truncZ ((p * s.shares : ℤ) * f) := by
      rw [hfee]
      exact Int.floor_nonneg.mpr hq
    have hfee_le : truncZ ((p * s.shares : ℤ) * f) ≤ p * s.shares := by
      rw [hfee]
      have h1 : ((p * s.shares : ℤ) : ℚ) * f ≤ ((p * s.shares : ℤ) : ℚ) := by
        nlinarith [hq, (by exact_mod_cast hrev : (0:ℚ) ≤ ((p * s.shares : ℤ) : ℚ))]
      calc ⌊((p * s.shares : ℤ) : ℚ) * f⌋ ≤ ⌊((p * s.shares : ℤ) : ℚ)⌋ := Int.floor_le_floor h1
        _ = p * s.shares := Int.floor_intCast _
    dsimp only
    exact ⟨⟨by omega, le_rfl, le_rfl⟩, by omega⟩
  · exact ⟨⟨hc, hs, ha⟩, le_rfl⟩

/-- Well-formedness of a registered strategy: its ledger is well-formed
and its fee rate lies in `[0, 1]`. -/
def stratWellFormed (s : Strat) : Prop :=
  match s with
  | Strat.panic st => st.base.goodLedger ∧ 0 ≤ st.feeRate ∧ st.feeRate ≤ 1
  | Strat.dca st => st.base.goodLedger ∧ 0 ≤ st.feeRate ∧ st.feeRate ≤ 1
  | Strat.hold st => st.base.goodLedger ∧ 0 ≤ st.feeRate ∧ st.feeRate ≤ 1

theorem panic_onPrice_feeRate (st : PanicSellState) (i : ℕ) (p : ℤ) (r : ℚ) :
    (st.onPrice i p r).feeRate = st.feeRate := by
  simp only [PanicSellState.onPrice]
  split_ifs <;> rfl

theorem dca_onPrice_feeRate (st : DCAState) (i : ℕ) (p : ℤ) (r : ℚ) :
    (st.onPrice i p r).feeRate = st.feeRate := by
  simp only [DCAState.onPrice]
  split_ifs <;> rfl

theorem hold_onPrice_feeRate (st : HoldState) (i : ℕ) (p : ℤ) (r : ℚ) :
    (st.onPrice i p r).feeRate = st.feeRate := by
  simp only [HoldState.onPrice]
  split_ifs <;> rfl

theorem stratWellFormed_step (s : Strat) (i : ℕ) (p : ℤ) (r : ℚ)
    (hp : 0 ≤ p) (h : stratWellFormed s) : stratWellFormed (s.onPrice i p r) := by
  cases s with
  | panic st =>
    obtain ⟨hg, hf0, hf1⟩ := h
    refine ⟨?_, by rw [panic_onPrice_feeRate]; exact hf0,
      by rw [panic_onPrice_feeRate]; exact hf1⟩
    simp only [PanicSellState.onPrice]
    split_ifs with h1 h2 h3 h4 <;>
      simp only [TradingStrategy.goodLedger, TradingStrategy.recordEquity_cash,
        TradingStrategy.recordEquity_shares, TradingStrategy.recordEquity_avgPrice] <;>
      first
        | exact TradingStrategy.buy_goodLedger st.base p _ st.feeRate hp hg
        | exact (TradingStrategy.sellAll_goodLedger st.base p st.feeRate hp hf0 hf1 hg).1
        | exact hg
  | dca st =>
    obtain ⟨hg, hf0, hf1⟩ := h
    refine ⟨?_, by rw [dca_onPrice_feeRate]; exact hf0,
      by rw [dca_onPrice_feeRate]; exact hf1⟩
    simp only [DCAState.onPrice]
    split_ifs with h1 h2 <;>
      simp only [TradingStrategy.goodLedger, TradingStrategy.recordEquity_cash,
        TradingStrategy.recordEquity_shares, TradingStrategy.recordEquity_avgPrice] <;>
      first
        | exact TradingStrategy.buy_goodLedger st.base p _ st.feeRate hp hg
        | exact hg
  | hold st =>
    obtain ⟨hg, hf0, hf1⟩ := h
    refine ⟨?_, by rw [hold_onPrice_feeRate]; exact hf0,
      by rw [hold_onPrice_feeRate]; exact hf1⟩
    simp only [HoldState.onPrice]
    split_ifs with h1 h2 <;>
      simp only [TradingStrategy.goodLedger, TradingStrategy.recordEquity_cash,
        TradingStrategy.recordEquity_shares, TradingStrategy.recordEquity_avgPrice] <;>
      first
        | exact TradingStrategy.buy_goodLedger st.base p _ st.feeRate hp hg
        | exact hg

/-- Any per-strategy property preserved by `onPrice` on non-negative
prices is preserved by the engine tick loop run over a series of
non-negative prices. -/
theorem runLoop_preserves_nonneg (P : Strat → Prop)
    (hP : ∀ (s : Strat) (i : ℕ) (p : ℤ) (r : ℚ), 0 ≤ p → P s → P (s.onPrice i p r)) :
    ∀ (prices : List ℤ) (i : ℕ) (prev : ℤ) (ss : List Strat),
      (∀ p ∈ prices, 0 ≤ p) → (∀ s ∈ ss, P s) → ∀ s ∈ runLoop prices i prev ss, P s := by
  intro prices
  induction prices with
  | nil => intro i prev ss _ hss s hs; exact hss s hs
  | cons p rest ih =>
    intro i prev ss hpr hss s hs
    refine ih (i + 1) p _ (fun x hx => hpr x (by simp [hx])) ?_ s hs
    intro t ht
    obtain ⟨t0, ht0, rfl⟩ := List.mem_map.mp ht
    exact hP t0 i p _ (hpr p (by simp)) (hss t0 ht0)

/-- **C10.** Starting from well-formed strategies (non-negative cash,
shares and average price, fee rate in `[0,1]`) and a price series of
non-negative prices, every strategy state reached by the engine keeps
`cash >= 0`, `shares >= 0` and `avgPrice >= 0` (third conjunct); `buy`
refuses whenever `cash < cost + fee`, leaving the state unchanged (first
conjunct), and `sellAll` never decreases cash (second conjunct). -/
theorem ledger_never_negative :
    (∀ (s : TradingStrategy) (price qty : ℤ) (feeRate : ℚ),
      s.cash < price * qty + truncZ ((price * qty : ℤ) * feeRate) →
      s.buy price qty feeRate = s) ∧
    (∀ (s : TradingStrategy) (price : ℤ) (feeRate : ℚ),
      0 ≤ price → 0 ≤ feeRate → feeRate ≤ 1 → s.goodLedger →
      s.cash ≤ (s.sellAll price feeRate).cash) ∧
    (∀ (prices : List ℤ) (ss : List Strat),
      (∀ p ∈ prices, 0 ≤ p) → (∀ s ∈ ss, stratWellFormed s) →
      ∀ s ∈ runBattle prices ss,
        0 ≤ s.base.cash ∧ 0 ≤ s.base.shares ∧ 0 ≤ s.base.avgPrice) := by
  refine ⟨?_, ?_, ?_⟩
  · intro s price qty feeRate hlt
    exact TradingStrategy.buy_eq_of_guard s price qty feeRate (by omega)
  · intro s price feeRate hp hf0 hf1 hg
    exact (TradingStrategy.sellAll_goodLedger s price feeRate hp hf0 hf1 hg).2
  · intro prices ss hpr hss s hs
    have hgood : stratWellFormed s := by
      cases prices with
      | nil => exact hss s hs
      | cons p rest =>
        exact runLoop_preserves_nonneg stratWellFormed
          (fun t i q r hq ht => stratWellFormed_step t i q r hq ht)
          (p :: rest) 0 p ss hpr hss s hs
    cases s with
    | panic st => exact hgood.1
    | dca st => exact hgood.1
    | hold st => exact hgood.1

/-- Witness for `ledger_never_negative`: a run of all three strategies on
a concrete non-negative price series keeps every ledger component
non-negative. -/
theorem ledger_never_negative_witness :
    (runBattle [10, 9]
        [Strat.panic (PanicSellState.init 100 0 0),
         Strat.dca (DCAState.init 100 0 5 (1/4) 0),
         Strat.hold (HoldState.init 100 (1/2) 0)]).all
      (fun s => decide (0 ≤ s.base.cash) && decide (0 ≤ s.base.shares) &&
        decide (0 ≤ s.base.avgPrice)) = true := by
  rw [List.all_eq_true]
  intro s hs
  have h := ledger_never_negative.2.2 [10, 9]
    [Strat.panic (PanicSellState.init 100 0 0),
     Strat.dca (DCAState.init 100 0 5 (1/4) 0),
     Strat.hold (HoldState.init 100 (1/2) 0)]
    (by decide)
    (by
      intro t ht
      simp only [List.mem_cons, List.mem_singleton] at ht
      rcases ht with rfl | rfl | rfl | h0
      · exact ⟨⟨by decide, by decide, by decide⟩,
          by norm_num [PanicSellState.init], by norm_num [PanicSellState.init]⟩
      · exact ⟨⟨by decide, by decide, by decide⟩,
          by norm_num [DCAState.init], by norm_num [DCAState.init]⟩
      · exact ⟨⟨by decide, by decide, by decide⟩,
          by norm_num [HoldState.init], by norm_num [HoldState.init]⟩
      · exact absurd h0 (by simp))
    s hs
  obtain ⟨h1, h2, h3⟩ := h
  simp [h1, h2, h3]

/-- **C5.** On a DCA buy trigger (first affordable tick, interval
reached, or drop reached, with `cash >= price`), the intended spend is
`floor(cash * buyRatio)`, escalated to all remaining cash when that
amount is below the price of one share; the purchased quantity is the
spend divided by the fee-inclusive per-share cost, floored to whole
shares; when that quantity is zero nothing is bought and the last-buy
bookkeeping (`lastBuyIndex`, `lastBuyPrice`) is not updated, and when it
is positive the ledger buys that quantity and the bookkeeping moves to
the current tick and price. -/
theorem DCA_buy_spend_spec (st : DCAState) (idx : ℕ) (price : ℤ) (rate : ℚ)
    (hc : 0 ≤ st.base.cash) (hr : 0 ≤ st.buyRatio) (hp : 0 ≤ price) (hf : 0 ≤ st.feeRate)
    (htrig : st.base.cash ≥ price ∧
      (st.lastBuyIndex < 0 ∨ (idx : ℤ) - st.lastBuyIndex ≥ st.dcaInterval ∨
        (st.lastBuyPrice > 0 ∧
          ((price : ℚ) - (st.lastBuyPrice : ℚ)) / (st.lastBuyPrice : ℚ) ≤ st.dcaDropRate))) :
    ((if ⌊(st.base.cash : ℚ) * st.buyRatio⌋ < price then st.base.cash
        else ⌊(st.base.cash : ℚ) * st.buyRatio⌋) / (price + ⌊(price : ℚ) * st.feeRate⌋) = 0 →
      st.onPrice idx price rate = { st with base := st.base.recordEquity price }) ∧
    (0 < (if ⌊(st.base.cash : ℚ) * st.buyRatio⌋ < price then st.base.cash
        else ⌊(st.base.cash : ℚ) * st.buyRatio⌋) / (price + ⌊(price : ℚ) * st.feeRate⌋) →
      st.onPrice idx price rate
        = { st with
            base := (st.base.buy price
              ((if ⌊(st.base.cash : ℚ) * st.buyRatio⌋ < price then st.base.cash
                  else ⌊(st.base.cash : ℚ) * st.buyRatio⌋) /
                (price + ⌊(price : ℚ) * st.feeRate⌋)) st.feeRate).recordEquity price,
            lastBuyIndex := (idx : ℤ), lastBuyPrice := price }) := by
  have hba : truncZ ((st.base.cash : ℚ) * st.buyRatio) = ⌊(st.base.cash : ℚ) * st.buyRatio⌋ :=
    truncZ_of_nonneg (mul_nonneg (by exact_mod_cast hc) hr)
  have hfee : truncZ ((price : ℚ) * st.feeRate) = ⌊(price : ℚ) * st.feeRate⌋ :=
    truncZ_of_nonneg (mul_nonneg (by exact_mod_cast hp) hf)
  have hba0 : 0 ≤ ⌊(st.base.cash : ℚ) * st.buyRatio⌋ :=
    Int.floor_nonneg.mpr (mul_nonneg (by exact_mod_cast hc) hr)
  have hfee0 : 0 ≤ ⌊(price : ℚ) * st.feeRate⌋ :=
    Int.floor_nonneg.mpr (mul_nonneg (by exact_mod_cast hp) hf)
  have hspend0 : 0 ≤ (if ⌊(st.base.cash : ℚ) * st.buyRatio⌋ < price then st.base.cash
      else ⌊(st.base.cash : ℚ) * st.buyRatio⌋) := by
    split <;> omega
  have hqty : (if truncZ ((st.base.cash : ℚ) * st.buyRatio) < price then st.base.cash
        else truncZ ((st.base.cash : ℚ) * st.buyRatio)).tdiv
          (price + truncZ ((price : ℚ) * st.feeRate))
      = (if ⌊(st.base.cash : ℚ) * st.buyRatio⌋ < price then st.base.cash
        else ⌊(st.base.cash : ℚ) * st.buyRatio⌋) / (price + ⌊(price : ℚ) * st.feeRate⌋) := by
    rw [hba, hfee]
    exact Int.tdiv_eq_ediv hspend0 (by omega)
  have hsb : (if st.lastBuyIndex < 0 ∧ st.base.cash ≥ price then True
      else if st.base.cash ≥ price then
        ((idx : ℤ) - st.lastBuyIndex ≥ st.dcaInterval) ∨
          (st.lastBuyPrice > 0 ∧
            ((price : ℚ) - (st.lastBuyPrice : ℚ)) / (st.lastBuyPrice : ℚ) ≤ st.dcaDropRate)
      else False) := by
    by_cases h1 : st.lastBuyIndex < 0 ∧ st.base.cash ≥ price
    · rw [if_pos h1]; trivial
    · rw [if_neg h1, if_pos htrig.1]
      rcases htrig.2 with hA | hB | hC
      · exact absurd ⟨hA, htrig.1⟩ h1
      · exact Or.inl hB
      · exact Or.inr hC
  constructor
  · intro hzero
    simp only [DCAState.onPrice, if_pos hsb, hqty, hzero]
    rw [if_neg (by omega)]
  · intro hpos
    simp only [DCAState.onPrice, if_pos hsb, hqty]
    rw [if_pos hpos]

/-- Witness for `DCA_buy_spend_spec`: fresh DCA strategy with cash 1000,
buy ratio 1/4, fee 0; at price 100 the intended spend 250 covers a share
and buys `250 / 100 = 2` shares. -/
theorem DCA_buy_spend_spec_witness :
    (DCAState.init 1000 0 5 (1/4) 0).onPrice 0 100 0
      = { DCAState.init 1000 0 5 (1/4) 0 with
          base := (((DCAState.init 1000 0 5 (1/4) 0).base.buy 100 2 0).recordEquity 100),
          lastBuyIndex := 0, lastBuyPrice := 100 } := by
  have h := (DCA_buy_spend_spec (DCAState.init 1000 0 5 (1/4) 0) 0 100 0
      (by decide) (by norm_num [DCAState.init]) (by decide) (by norm_num [DCAState.init])
      ⟨by decide, Or.inl (by decide)⟩).2
  have hq : (if ⌊((DCAState.init 1000 0 5 (1/4) 0).base.cash : ℚ)
          * (DCAState.init 1000 0 5 (1/4) 0).buyRatio⌋ < 100
        then (DCAState.init 1000 0 5 (1/4) 0).base.cash
        else ⌊((DCAState.init 1000 0 5 (1/4) 0).base.cash : ℚ)
          * (DCAState.init 1000 0 5 (1/4) 0).buyRatio⌋) /
        (100 + ⌊((100 : ℤ) : ℚ) * (DCAState.init 1000 0 5 (1/4) 0).feeRate⌋) = 2 := by
    norm_num [DCAState.init, TradingStrategy.init]
  rw [hq] at h
  exact h (by norm_num)

/-- The panic-sell state after the first tick of the C6 scenario: price
series `[100, 90, 81]`, starting cash 1000, fee 0, threshold -10%. -/
def panicTick0 : PanicSellState :=
  (PanicSellState.init 1000 (-(1/10)) 0).onPrice 0 100 0

/-- The panic-sell state of the C6 scenario after the second tick, whose
engine change rate versus the previous price is -10. -/
def panicTick1 : PanicSellState :=
  panicTick0.onPrice 1 90 (-10)

/-- **C6.** In the scenario (prices `[100, 90, 81]`, cash 1000, fee 0,
threshold -1/10), PanicSell buys 10 shares at tick 0 leaving cash 0,
shares 10, average cost 100; at tick 1 the profit rate
`(90-100)/100 = -1/10` equals the threshold and the `<=` comparison
fires, so it liquidates everything, leaving cash 900, shares 0 and one
recorded sale. -/
theorem panicSell_scenario :
    panicTick0.base.cash = 0 ∧ panicTick0.base.shares = 10 ∧
    panicTick0.base.avgPrice = 100 ∧ panicTick0.base.buyCount = 1 ∧
    panicTick1.base.cash = 900 ∧ panicTick1.base.shares = 0 ∧
    panicTick1.base.sellCount = 1 := by
  have h0 : panicTick0
      = { base := { name := "Panic Seller", cash := 0, shares := 10, avgPrice := 100,
                    equityHistory := [1000], buyCount := 1, sellCount := 0 },
          stopLossRate := -(1/10), feeRate := 0, hasBought := true } := by
    norm_num [panicTick0, PanicSellState.onPrice, PanicSellState.init, TradingStrategy.init,
      TradingStrategy.buy, TradingStrategy.recordEquity, TradingStrategy.getTotalValue,
      truncZ, Int.tdiv_eq_ediv]
  have h1 : panicTick1.base.cash = 900 ∧ panicTick1.base.shares = 0 ∧
      panicTick1.base.sellCount = 1 := by
    rw [panicTick1, h0]
    norm_num [PanicSellState.onPrice, TradingStrategy.sellAll, TradingStrategy.recordEquity,
      TradingStrategy.getTotalValue, truncZ]
  rw [h0]
  exact ⟨rfl, rfl, rfl, rfl, h1.1, h1.2.1, h1.2.2⟩

theorem bubblePassN_perm : ∀ (k : ℕ) (l : List StrategyReport), (bubblePassN k l).Perm l := by
  intro k
  induction k with
  | zero => intro l; rfl
  | succ k ih =>
    intro l
    match l with
    | [] => rfl
    | [a] => rfl
    | a :: b :: t =>
      simp only [bubblePassN]
      split_ifs with hab
      · exact ((ih (a :: t)).cons b).trans (List.Perm.swap a b t)
      · exact (ih (b :: t)).cons a

theorem bubblePassN_filter (r : ℚ) : ∀ (k : ℕ) (l : List StrategyReport),
    (bubblePassN k l).filter (fun x => decide (x.totalReturn = r))
      = l.filter (fun x => decide (x.totalReturn = r)) := by
  intro k
  induction k with
  | zero => intro l; rfl
  | succ k ih =>
    intro l
    match l with
    | [] => rfl
    | [a] => rfl
    | a :: b :: t =>
      simp only [bubblePassN]
      split_ifs with hab
      · by_cases har : a.totalReturn = r <;> by_cases hbr : b.totalReturn = r
        · exfalso; rw [har, hbr] at hab; exact lt_irrefl r hab
        · simp [List.filter_cons, har, hbr, ih (a :: t)]
        · simp [List.filter_cons, har, hbr, ih (a :: t)]
        · simp [List.filter_cons, har, hbr, ih (a :: t)]
      · by_cases har : a.totalReturn = r <;> by_cases hbr : b.totalReturn = r <;>
          simp [List.filter_cons, har, hbr, ih (b :: t)]

theorem bubblePassN_sink : ∀ (k : ℕ) (l : List StrategyReport), k + 1 ≤ l.length →
    ∃ front m, bubblePassN k l = front ++ m :: l.drop (k + 1) ∧
      front.length = k ∧
      (∀ x ∈ front, m.totalReturn ≤ x.totalReturn) ∧
      (front ++ [m]).Perm (l.take (k + 1)) := by
  intro k
  induction k with
  | zero =>
    intro l hl
    cases l with
    | nil => simp at hl
    | cons a t => exact ⟨[], a, rfl, rfl, by simp, by simp⟩
  | succ k ih =>
    intro l hl
    cases l with
    | nil => simp at hl
    | cons a l' =>
      cases l' with
      | nil => simp at hl
      | cons b t =>
        simp only [bubblePassN]
        have hl' : k + 1 ≤ t.length + 1 := by simp at hl; omega
        split_ifs with hab
        · obtain ⟨front, m, heq, hlen, hmin, hperm⟩ := ih (a :: t) (by simpa using hl')
          refine ⟨b :: front, m, ?_, by simp [hlen], ?_, ?_⟩
          · rw [heq]; rfl
          · intro x hx
            rcases List.mem_cons.mp hx with rfl | hxf
            · have ha_mem : a ∈ front ++ [m] :=
                hperm.mem_iff.mpr (by simp [List.take_succ_cons])
              have hma : m.totalReturn ≤ a.totalReturn := by
                rcases List.mem_append.mp ha_mem with h1 | h2
                · exact hmin a h1
                · have : a = m := by simpa using h2
                  rw [this]
              exact le_trans hma (le_of_lt hab)
            · exact hmin x hxf
          · exact (hperm.cons b).trans (List.Perm.swap a b (t.take k))
        · obtain ⟨front, m, heq, hlen, hmin, hperm⟩ := ih (b :: t) (by simpa using hl')
          refine ⟨a :: front, m, ?_, by simp [hlen], ?_, ?_⟩
          · rw [heq]; rfl
          · intro x hx
            rcases List.mem_cons.mp hx with rfl | hxf
            · have hb_mem : b ∈ front ++ [m] :=
                hperm.mem_iff.mpr (by simp [List.take_succ_cons])
              have hmb : m.totalReturn ≤ b.totalReturn := by
                rcases List.mem_append.mp hb_mem with h1 | h2
                · exact hmin b h1
                · have : b = m := by simpa using h2
                  rw [this]
              exact le_trans hmb (not_lt.mp hab)
            · exact hmin x hxf
          · exact hperm.cons a

theorem bubbleIter_perm : ∀ (k : ℕ) (l : List StrategyReport), (bubbleIter k l).Perm l := by
  intro k
  induction k with
  | zero => intro l; rfl
  | succ k ih =>
    intro l
    simp only [bubbleIter]
    exact (ih (bubblePassN k l)).trans (bubblePassN_perm k l)

theorem bubbleIter_filter (r : ℚ) : ∀ (k : ℕ) (l : List StrategyReport),
    (bubbleIter k l).filter (fun x => decide (x.totalReturn = r))
      = l.filter (fun x => decide (x.totalReturn = r)) := by
  intro k
  induction k with
  | zero => intro l; rfl
  | succ k ih =>
    intro l
    simp only [bubbleIter]
    rw [ih (bubblePassN k l), bubblePassN_filter r k l]

theorem bubbleIter_sorted : ∀ (k : ℕ) (l : List StrategyReport), k ≤ l.length →
    (l.drop k).Pairwise (fun x y => y.totalReturn ≤ x.totalReturn) →
    (∀ x ∈ l.take k, ∀ y ∈ l.drop k, y.totalReturn ≤ x.totalReturn) →
    (bubbleIter k l).Pairwise (fun x y => y.totalReturn ≤ x.totalReturn) := by
  intro k
  induction k with
  | zero => intro l _ hs _; simpa using hs
  | succ k ih =>
    intro l hk hs hdom
    simp only [bubbleIter]
    obtain ⟨front, m, heq, hlen, hmin, hperm⟩ := bubblePassN_sink k l hk
    have hlen' : (bubblePassN k l).length = l.length := (bubblePassN_perm k l).length_eq
    have hm_take : m ∈ l.take (k + 1) := hperm.mem_iff.mp (by simp)
    have htakek : (bubblePassN k l).take k = front := by
      rw [heq, ← hlen]
      exact List.take_left front _
    have hdropk : (bubblePassN k l).drop k = m :: l.drop (k + 1) := by
      rw [heq, ← hlen]
      exact List.drop_left front _
    apply ih (bubblePassN k l) (by omega)
    · rw [hdropk]
      refine List.Pairwise.cons ?_ hs
      intro y hy
      exact hdom m hm_take y hy
    · intro x hx y hy
      rw [htakek] at hx
      rw [hdropk] at hy
      have hx_take : x ∈ l.take (k + 1) :=
        hperm.mem_iff.mp (List.mem_append.mpr (Or.inl hx))
      rcases List.mem_cons.mp hy with rfl | hy'
      · exact hmin x hx
      · exact hdom x hx_take y hy'

theorem bubblePassN_of_sorted : ∀ (k : ℕ) (l : List StrategyReport),
    l.Pairwise (fun x y => y.totalReturn ≤ x.totalReturn) → bubblePassN k l = l := by
  intro k
  induction k with
  | zero => intro l _; rfl
  | succ k ih =>
    intro l hl
    match l with
    | [] => rfl
    | [a] => rfl
    | a :: b :: t =>
      have hba : b.totalReturn ≤ a.totalReturn :=
        (List.pairwise_cons.mp hl).1 b (by simp)
      simp only [bubblePassN]
      rw [if_neg (not_lt.mpr hba), ih (b :: t) (List.pairwise_cons.mp hl).2]

theorem bubbleIter_of_sorted : ∀ (k : ℕ) (l : List StrategyReport),
    l.Pairwise (fun x y => y.totalReturn ≤ x.totalReturn) → bubbleIter k l = l := by
  intro k
  induction k with
  | zero => intro l _; rfl
  | succ k ih =>
    intro l hl
    simp only [bubbleIter]
    rw [bubblePassN_of_sorted k l hl, ih l hl]

/-- **C9.** The ranking built by `printRanking` is a permutation of the
input report list (first conjunct), sorted in descending order of total
return (second conjunct), stably: the reports carrying any given total
return keep their original relative registration order (third conjunct);
ranking an already ranked list returns it unchanged, so the operation is
idempotent (fourth conjunct). -/
theorem printRanking_ranked_spec (results : List StrategyReport) :
    (ranked results).Perm results ∧
    (ranked results).Pairwise (fun x y => y.totalReturn ≤ x.totalReturn) ∧
    (∀ r : ℚ, (ranked results).filter (fun x => decide (x.totalReturn = r))
        = results.filter (fun x => decide (x.totalReturn = r))) ∧
    ranked (ranked results) = ranked results := by
  have hsorted : (ranked results).Pairwise (fun x y => y.totalReturn ≤ x.totalReturn) :=
    bubbleIter_sorted results.length results le_rfl (by simp) (by simp)
  refine ⟨bubbleIter_perm results.length results, hsorted,
    fun r => bubbleIter_filter r results.length results, ?_⟩
  exact bubbleIter_of_sorted (ranked results).length (ranked results) hsorted
